import Mathlib

/-!
Shallow embedding of the wedding_playlist pipeline (ai_validator.py, main.py,
music_analyzer.py) and verification of its specification claims.

Modelling conventions:
* Python dicts for tracks become the `Track` structure; keys that a pipeline
  stage may or may not have set become `Option` fields (`none` = key absent).
* Python floats are modelled by exact rationals (`ℚ`).
* The network call to the scoring oracle and the JSON decoding library are
  external effects; their observable outcomes are modelled by the
  `OracleOutcome` / `ReplyContent` inductives (call raised, no bracketed
  span in the reply text, bracket span found but `json.loads` or the result
  traversal raised, or a decoded array of result entries).
-/

namespace WeddingPlaylist

/-- A track record as it flows through the pipeline (`ai_validator.py`,
`main.py`).  `id` is `none` when the `'id'` key is absent; the three
`ai_*` fields are `none` until the judgment stage sets them.
`ai_recommend` models the Python key `'ai_recommendation'`. -/
structure Track where
  id : Option String := none
  name : String := ""
  ai_party_score : Option ℚ := none
  ai_reasoning : Option String := none
  ai_recommend : Option String := none
deriving DecidableEq

/-- The sort/filter key of `AIValidator.filter_party_tracks`:
`track.get('ai_party_score', 0)` — a missing score reads as `0`. -/
def scoreKey (t : Track) : ℚ := t.ai_party_score.getD 0

/-- Stable insertion of a track into a score-descending list: the new track
goes after every strictly higher score and before every equal or lower
score, so an element inserted from earlier in the input stays before its
ties. -/
def insertDesc (t : Track) : List Track → List Track
  | [] => [t]
  | u :: us =>
      if scoreKey t < scoreKey u then u :: insertDesc t us else t :: u :: us

/-- Stable sort by `scoreKey` descending (right-fold insertion sort).
CPython's `list.sort(key=..., reverse=True)` is specified as a stable
descending sort; its output is the unique permutation of the input that is
score-descending with ties in input order, which is what this function
computes. -/
def sortDesc : List Track → List Track
  | [] => []
  | t :: ts => insertDesc t (sortDesc ts)

/-- Embeds `AIValidator.filter_party_tracks` (ai_validator.py:364-375):
keep the tracks with `track.get('ai_party_score', 0) >= min_score`, then
`party_tracks.sort(key=..., reverse=True)`. -/
def filter_party_tracks (tracks : List Track) (min_score : ℚ) : List Track :=
  sortDesc (tracks.filter (fun t => decide (min_score ≤ scoreKey t)))

/-- One decoded entry of the oracle's JSON result array; each field is
read with `result.get(key, default)`, so each is optional.
`recommend` models the JSON key `'recommendation'`. -/
structure AIResult where
  party_score : Option ℚ := none
  reasoning : Option String := none
  recommend : Option String := none
deriving DecidableEq

/-- Observable content of a raw oracle reply after the bracket scan of
`AIValidator._parse_ai_response`: either no `[`...`]` span was found, or
the span failed to decode (or its traversal raised `AttributeError`), or
it decoded to an array of entries. -/
inductive ReplyContent where
  | noBrackets : ReplyContent
  | decodeError : String → ReplyContent
  | results : List AIResult → ReplyContent
deriving DecidableEq

/-- Observable outcome of one oracle invocation in `AIValidator._validate_batch`:
the API call raised, or it returned a reply with the given content. -/
inductive OracleOutcome where
  | throwErr : String → OracleOutcome
  | reply : ReplyContent → OracleOutcome
deriving DecidableEq

/-- The `tracks[i].update({...})` performed for one decoded result entry
(ai_validator.py:258-262), with the `result.get` defaults. -/
def updateTrack (t : Track) (r : AIResult) : Track :=
  { t with
    ai_party_score := some (r.party_score.getD 5)
    ai_reasoning := some (r.reasoning.getD "No reasoning provided")
    ai_recommend := some (r.recommend.getD "maybe") }

/-- The uniform fallback `track.update({'ai_party_score': 5, 'ai_reasoning':
reason, 'ai_recommendation': 'maybe'})` used on every failure path. -/
def setFallback (reason : String) (t : Track) : Track :=
  { t with
    ai_party_score := some 5
    ai_reasoning := some reason
    ai_recommend := some "maybe" }

/-- The update loop `for i, result in enumerate(ai_results): if i < len(tracks):
tracks[i].update(...)` (ai_validator.py:256-262): result entry `i` is applied
to track `i`; extra entries are dropped; tracks beyond the entries are left
unchanged. -/
def applyResults : List AIResult → List Track → List Track
  | _, [] => []
  | [], ts => ts
  | r :: rs, t :: ts => updateTrack t r :: applyResults rs ts

/-- Embeds `AIValidator._parse_ai_response` (ai_validator.py:243-276): a decoded
array is applied entrywise; a missing bracket span or a decode/traversal
exception gives every track of the batch the fallback triple with a
parse-error reasoning. -/
def parse_ai_response (c : ReplyContent) (tracks : List Track) : List Track :=
  match c with
  | .noBrackets =>
      tracks.map (setFallback "Parsing error: No valid JSON found in response")
  | .decodeError msg => tracks.map (setFallback ("Parsing error: " ++ msg))
  | .results rs => applyResults rs tracks

/-- Embeds `AIValidator._validate_batch` (ai_validator.py:72-122): an exception
from the API call gives every track the fallback triple with an API-error
reasoning; otherwise the reply is parsed.  (The log file writes are external
I/O and are not modelled.) -/
def validate_batch (outcome : OracleOutcome) (tracks : List Track) : List Track :=
  match outcome with
  | .throwErr msg => tracks.map (setFallback ("API Error: " ++ msg))
  | .reply c => parse_ai_response c tracks

/-- Fuel-indexed worker for `chunksOf`; the fuel only bounds the recursion
depth (one unit per produced chunk never exceeds the list length when the
batch size is positive) and is set to the list length by `chunksOf`. -/
def chunksOfAux (bs : Nat) : Nat → List Track → List (List Track)
  | _, [] => []
  | 0, _ :: _ => []
  | fuel + 1, t :: ts =>
      if bs = 0 then []
      else (t :: ts).take bs :: chunksOfAux bs fuel (ts.drop (bs - 1))

/-- The slices `tracks[i:i+batch_size]` for `i in range(0, len(tracks),
batch_size)` (ai_validator.py:63-65).  Python raises `ValueError` on step 0;
the `bs = 0` branch here is never exercised (all theorems about batching
assume a positive batch size, matching the positive default of 5). -/
def chunksOf (bs : Nat) (l : List Track) : List (List Track) :=
  chunksOfAux bs l.length l

/-- Embeds `AIValidator.validate_tracks_for_party` (ai_validator.py:42-70).
`client` models `self.client`: `none` when no `DEEPSEEK_API_KEY` is
configured (in that branch no oracle is consulted at all and every track
gets the default triple), otherwise the oracle's outcome for each batch is
given by the `client` function.  Batch results are accumulated with
`validated_tracks.extend(batch_results)` in batch order. -/
def validate_tracks_for_party (client : Option (List Track → OracleOutcome))
    (tracks : List Track) (batch_size : Nat) : List Track :=
  match client with
  | none =>
      tracks.map (fun t =>
        { t with
          ai_party_score := some 5
          ai_reasoning := some "AI validation unavailable"
          ai_recommend := some "maybe" })
  | some oracle =>
      ((chunksOf batch_size tracks).map (fun b => validate_batch (oracle b) b)).flatten

/-- Decidable check that a track has all three judgment fields set. -/
def aiFieldsSet (t : Track) : Bool :=
  t.ai_party_score.isSome && t.ai_reasoning.isSome && t.ai_recommend.isSome

/-- A track with its judgment fields cleared; two tracks with equal `stripAI`
images agree on everything the judgment stage does not write. -/
def stripAI (t : Track) : Track :=
  { t with ai_party_score := none, ai_reasoning := none, ai_recommend := none }

/-- An oracle outcome covers a batch when it is a failure (uniform fallback)
or a decoded array with at least one entry per track. -/
def coversBatch (outcome : OracleOutcome) (b : List Track) : Bool :=
  match outcome with
  | .reply (.results rs) => decide (b.length ≤ rs.length)
  | _ => true

/-- Python truthiness of `track.get('id')` (main.py:82): the key must be
present and non-empty for the track to enter deduplication. -/
def validId (t : Track) : Option String :=
  match t.id with
  | none => none
  | some s => if s = "" then none else some s

/-- Insertion into an insertion-ordered dictionary (CPython dict semantics):
an existing key keeps its position but its value is replaced; a new key is
appended at the end. -/
def upsert (k : String) (t : Track) : List (String × Track) → List (String × Track)
  | [] => [(k, t)]
  | (k', t') :: rest =>
      if k' = k then (k', t) :: rest else (k', t') :: upsert k t rest

/-- One step of the dict comprehension `{track['id']: track for track in
all_tracks if track.get('id')}` (main.py:82, main.py:231). -/
def dedupStep (acc : List (String × Track)) (t : Track) : List (String × Track) :=
  match validId t with
  | none => acc
  | some k => upsert k t acc

/-- Embeds `list({track['id']: track for track in all_tracks if
track.get('id')}.values())` (main.py:82, main.py:231): build the
insertion-ordered dict left to right, then list its values. -/
def dedupById (tracks : List Track) : List Track :=
  (tracks.foldl dedupStep []).map Prod.snd

/-- The ids that receive dict entries, in order of first appearance, skipping
ids already seen: the key order of the comprehension's dict. -/
def newKeys (seen : List String) : List Track → List String
  | [] => []
  | t :: ts =>
      match validId t with
      | none => newKeys seen ts
      | some k => if k ∈ seen then newKeys seen ts else k :: newKeys (k :: seen) ts

/-- Python substring test `kw in s` over character lists. -/
def containsSeq : List Char → List Char → Bool
  | [], kw => kw.isEmpty
  | c :: tail, kw => kw.isPrefixOf (c :: tail) || containsSeq tail kw

/-- The configured high-energy keyword list (music_analyzer.py:72). -/
def high_energy_keywords : List String :=
  ["dance", "party", "electric", "beat", "club", "remix", "uptempo", "energy",
   "pump", "groove"]

/-- The configured low-energy keyword list (music_analyzer.py:73). -/
def low_energy_keywords : List String :=
  ["ballad", "acoustic", "slow", "quiet", "piano", "soft", "gentle", "lullaby",
   "ambient"]

/-- The characters of `track_name.lower()`. -/
def lowerChars (s : String) : List Char := s.toList.map Char.toLower

/-- Whether `keyword in track_name.lower()` holds. -/
def kwHit (track_name : String) (kw : String) : Bool :=
  containsSeq (lowerChars track_name) kw.toList

/-- The clamp `max(0.0, min(1.0, x))`, written with explicit comparisons. -/
def clamp01 (x : ℚ) : ℚ := if x < 0 then 0 else if 1 < x then 1 else x

/-- Embeds `MusicAnalyzer._estimate_energy_from_name` (music_analyzer.py:68-85):
start at 0.5, add 0.1 per matching high-energy keyword, subtract 0.1 per
matching low-energy keyword, clamp to [0, 1].  Python float arithmetic is
modelled by exact rationals. -/
def estimate_energy_from_name (track_name : String) : ℚ :=
  let afterHigh :=
    high_energy_keywords.foldl
      (fun acc kw => if kwHit track_name kw then acc + 1/10 else acc) (1/2)
  let afterLow :=
    low_energy_keywords.foldl
      (fun acc kw => if kwHit track_name kw then acc - 1/10 else acc) afterHigh
  clamp01 afterLow

/-- The number of keywords from `kws` matching the lower-cased title. -/
def hitCount (track_name : String) (kws : List String) : Nat :=
  (kws.filter (kwHit track_name)).length

/-- The four configured metadata feature columns of `MusicAnalyzer`
(music_analyzer.py:25-27). -/
inductive FeatureCol where
  | popularity : FeatureCol
  | duration_ms : FeatureCol
  | release_year : FeatureCol
  | artist_popularity : FeatureCol
deriving DecidableEq

/-- One dataframe row as seen by `MusicAnalyzer.cluster_tracks`; a `none`
cell is a pandas `NaN`.  The derived `name_energy` column is computed from
`name` and is therefore never null, so it cannot cause a `dropna` drop. -/
structure Row where
  name : String := ""
  popularity : Option ℚ := none
  duration_ms : Option ℚ := none
  release_year : Option ℚ := none
  artist_popularity : Option ℚ := none
deriving DecidableEq

/-- Cell lookup for a feature column. -/
def getCol (r : Row) : FeatureCol → Option ℚ
  | .popularity => r.popularity
  | .duration_ms => r.duration_ms
  | .release_year => r.release_year
  | .artist_popularity => r.artist_popularity

/-- Whether the row survives `df[available_features].dropna()` for the given
selected columns. -/
def hasAllFeatures (cols : List FeatureCol) (r : Row) : Bool :=
  cols.all (fun c => (getCol r c).isSome)

/-- Embeds the row selection of `MusicAnalyzer.cluster_tracks`
(music_analyzer.py:101-130): `cols` is the subset of the configured feature
columns present in the frame; rows with any null selected cell are dropped
by `dropna()`; `df.loc[feature_data.index]` then restricts the frame to
exactly the surviving rows, in order, and those rows receive cluster
labels.  If no row survives, `ValueError` is raised
(`"No valid metadata found for clustering"`).  The label values themselves
come from the scaler/PCA/KMeans library calls and do not affect which rows
are in the labelled output, so they are not modelled. -/
def cluster_tracks (cols : List FeatureCol) (rows : List Row) :
    Except String (List Row) :=
  let complete := rows.filter (hasAllFeatures cols)
  if complete.isEmpty then Except.error "No valid metadata found for clustering"
  else Except.ok complete

/-! ### Lemmas about the stable descending sort of the Selector -/

theorem insertDesc_perm (t : Track) : ∀ l : List Track, List.Perm (insertDesc t l) (t :: l)
  | [] => List.Perm.refl _
  | u :: us => by
      rw [insertDesc]
      split
      · exact ((insertDesc_perm t us).cons u).trans (List.Perm.swap t u us)
      · exact List.Perm.refl _

theorem sortDesc_perm : ∀ l : List Track, List.Perm (sortDesc l) l
  | [] => List.Perm.refl _
  | t :: ts => (insertDesc_perm t (sortDesc ts)).trans ((sortDesc_perm ts).cons t)

theorem mem_sortDesc {u : Track} {l : List Track} : u ∈ sortDesc l ↔ u ∈ l :=
  (sortDesc_perm l).mem_iff

theorem mem_insertDesc {u t : Track} {l : List Track} :
    u ∈ insertDesc t l ↔ u = t ∨ u ∈ l := by
  rw [(insertDesc_perm t l).mem_iff, List.mem_cons]

theorem pairwise_insertDesc (t : Track) {l : List Track}
    (h : l.Pairwise (fun a b => scoreKey b ≤ scoreKey a)) :
    (insertDesc t l).Pairwise (fun a b => scoreKey b ≤ scoreKey a) := by
  induction l with
  | nil => simp [insertDesc]
  | cons u us ih =>
      rw [insertDesc]
      rcases List.pairwise_cons.mp h with ⟨hu, hus⟩
      split
      · rename_i hlt
        refine List.pairwise_cons.mpr ⟨?_, ih hus⟩
        intro v hv
        rcases mem_insertDesc.mp hv with rfl | hv
        · exact le_of_lt hlt
        · exact hu v hv
      · rename_i hge
        refine List.pairwise_cons.mpr ⟨?_, h⟩
        intro v hv
        rcases List.mem_cons.mp hv with rfl | hv
        · exact le_of_not_lt hge
        · exact le_trans (hu v hv) (le_of_not_lt hge)

theorem sortDesc_sorted : ∀ l : List Track,
    (sortDesc l).Pairwise (fun a b => scoreKey b ≤ scoreKey a)
  | [] => List.Pairwise.nil
  | t :: ts => pairwise_insertDesc t (sortDesc_sorted ts)

theorem filter_insertDesc (s : ℚ) (t : Track) (l : List Track) :
    (insertDesc t l).filter (fun u => decide (scoreKey u = s)) =
      if scoreKey t = s then t :: l.filter (fun u => decide (scoreKey u = s))
      else l.filter (fun u => decide (scoreKey u = s)) := by
  induction l with
  | nil =>
      by_cases hts : scoreKey t = s <;> simp [insertDesc, List.filter, hts]
  | cons u us ih =>
      rw [insertDesc]
      by_cases hlt : scoreKey t < scoreKey u
      · rw [if_pos hlt]
        by_cases hts : scoreKey t = s
        · have hus : ¬ (scoreKey u = s) := by
            intro hu
            rw [hts, hu] at hlt
            exact lt_irrefl s hlt
          simp [List.filter_cons, hus, hts, ih]
        · by_cases hus : scoreKey u = s <;>
            simp [List.filter_cons, hus, hts, ih]
      · rw [if_neg hlt]
        by_cases hts : scoreKey t = s <;>
          simp [List.filter_cons, hts]

theorem filter_sortDesc (s : ℚ) : ∀ l : List Track,
    (sortDesc l).filter (fun u => decide (scoreKey u = s)) =
      l.filter (fun u => decide (scoreKey u = s))
  | [] => rfl
  | t :: ts => by
      rw [sortDesc, filter_insertDesc]
      by_cases hts : scoreKey t = s <;>
        simp [hts, List.filter_cons, filter_sortDesc s ts]

theorem mem_filter_party_tracks {t : Track} {tracks : List Track} {min_score : ℚ} :
    t ∈ filter_party_tracks tracks min_score ↔ t ∈ tracks ∧ min_score ≤ scoreKey t := by
  rw [filter_party_tracks, mem_sortDesc, List.mem_filter, decide_eq_true_eq]

/-! ### Selector claims -/

/-- The three tracks of the spec's selector scenario: a(9, "no"),
b(3, "yes"), c(7, "maybe"). -/
def trackA : Track :=
  { id := some "a", name := "a", ai_party_score := some 9,
    ai_reasoning := some "r", ai_recommend := some "no" }

def trackB : Track :=
  { id := some "b", name := "b", ai_party_score := some 3,
    ai_reasoning := some "r", ai_recommend := some "yes" }

def trackC : Track :=
  { id := some "c", name := "c", ai_party_score := some 7,
    ai_reasoning := some "r", ai_recommend := some "maybe" }

/-- C1 counterexample: on the spec's own scenario (min_score 6), the code
returns only a(9) and c(7); b is dropped even though its recommendation is
"yes", so the claimed `score >= min_score OR recommendation == "yes"`
inclusion rule does not hold — the code tests the score alone. -/
theorem filter_party_tracks_drops_recommended_cx :
    filter_party_tracks [trackA, trackB, trackC] 6 = [trackA, trackC] ∧
      trackB.ai_recommend = some "yes" ∧
      trackB ∉ filter_party_tracks [trackA, trackB, trackC] 6 := by
  refine ⟨by decide, rfl, by decide⟩

/-- C1 (amended): `filter_party_tracks` includes exactly the tracks with
`ai_party_score` (default 0) at least `min_score`; the recommendation field
is never consulted, so a track recommended "yes" with a score below the
threshold is excluded. -/
theorem filter_party_tracks_membership (tracks : List Track) (min_score : ℚ)
    (t : Track) :
    t ∈ filter_party_tracks tracks min_score ↔
      t ∈ tracks ∧ min_score ≤ scoreKey t :=
  mem_filter_party_tracks

/-- C8: the selector output is sorted by score descending, and for every
score value the output's tracks with that score are exactly the included
input tracks with that score in input order — a stable sort. -/
theorem filter_party_tracks_sorted_stable (tracks : List Track) (min_score : ℚ) :
    (filter_party_tracks tracks min_score).Pairwise
        (fun a b => scoreKey b ≤ scoreKey a) ∧
      ∀ s : ℚ,
        (filter_party_tracks tracks min_score).filter
            (fun t => decide (scoreKey t = s)) =
          (tracks.filter (fun t => decide (min_score ≤ scoreKey t))).filter
            (fun t => decide (scoreKey t = s)) := by
  constructor
  · exact sortDesc_sorted _
  · intro s
    exact filter_sortDesc s _

/-- C9: a judged track lacking `ai_party_score` is keyed as 0 by the
selector: with a positive threshold it is excluded; with a non-positive
threshold it is included; and in the output no score-less track ever
precedes a track of positive score. -/
theorem filter_party_tracks_missing_score (tracks : List Track) (min_score : ℚ) :
    (0 < min_score →
        ∀ t ∈ filter_party_tracks tracks min_score, t.ai_party_score ≠ none) ∧
      (min_score ≤ 0 →
        ∀ t ∈ tracks, t.ai_party_score = none →
          t ∈ filter_party_tracks tracks min_score) ∧
      (filter_party_tracks tracks min_score).Pairwise
        (fun a b => a.ai_party_score = none → scoreKey b ≤ 0) := by
  refine ⟨?_, ?_, ?_⟩
  · intro hpos t ht hnone
    have hs : min_score ≤ scoreKey t := (mem_filter_party_tracks.mp ht).2
    rw [scoreKey, hnone] at hs
    exact absurd (lt_of_lt_of_le hpos hs) (lt_irrefl 0)
  · intro hle t ht hnone
    refine mem_filter_party_tracks.mpr ⟨ht, ?_⟩
    rw [scoreKey, hnone]
    exact hle
  · refine (sortDesc_sorted _).imp ?_
    intro a b hba hnone
    have ha : scoreKey a = 0 := by rw [scoreKey, hnone]; rfl
    rw [ha] at hba
    exact hba

/-- A score-less track and a scored track for the C9 witness. -/
def trackW1 : Track := { name := "w1" }

def trackW2 : Track := { name := "w2", ai_party_score := some 3 }

/-- C9 witness: with threshold 1 every output track carries a score (the
score-less w1 is gone); with threshold 0 the score-less w1 is included. -/
theorem filter_party_tracks_missing_score_witness :
    (filter_party_tracks [trackW1, trackW2] 1).all
        (fun t => t.ai_party_score.isSome) = true ∧
      trackW1 ∈ filter_party_tracks [trackW1, trackW2] 0 :=
  ⟨List.all_eq_true.mpr (fun t ht => Option.isSome_iff_ne_none.mpr
      ((filter_party_tracks_missing_score [trackW1, trackW2] 1).1
        (by norm_num) t ht)),
    (filter_party_tracks_missing_score [trackW1, trackW2] 0).2.1
      (le_refl 0) trackW1 (List.mem_cons_self _ _) rfl⟩

/-! ### Lemmas about batching and the judgment stage -/

theorem chunksOfAux_congr (bs : Nat) :
    ∀ (f₁ f₂ : Nat) (l : List Track), l.length ≤ f₁ → l.length ≤ f₂ →
      chunksOfAux bs f₁ l = chunksOfAux bs f₂ l
  | f₁, f₂, [], _, _ => by cases f₁ <;> cases f₂ <;> rfl
  | 0, _, t :: ts, h₁, _ => by simp at h₁
  | _, 0, t :: ts, _, h₂ => by simp at h₂
  | f₁ + 1, f₂ + 1, t :: ts, h₁, h₂ => by
      rw [chunksOfAux, chunksOfAux]
      by_cases hbs : bs = 0
      · simp [hbs]
      · simp only [if_neg hbs]
        rw [chunksOfAux_congr bs f₁ f₂ (ts.drop (bs - 1))
          (le_trans (by simp) (Nat.le_of_succ_le_succ h₁))
          (le_trans (by simp) (Nat.le_of_succ_le_succ h₂))]

theorem chunksOf_cons {bs : Nat} (hbs : 0 < bs) (t : Track) (ts : List Track) :
    chunksOf bs (t :: ts) = (t :: ts).take bs :: chunksOf bs (ts.drop (bs - 1)) := by
  rw [chunksOf, chunksOf, List.length_cons, chunksOfAux,
    if_neg (Nat.pos_iff_ne_zero.mp hbs)]
  rw [chunksOfAux_congr bs ts.length (ts.drop (bs - 1)).length (ts.drop (bs - 1))
    (by simp [List.length_drop]) (le_refl _)]

theorem chunksOf_flatten {bs : Nat} (hbs : 0 < bs) :
    ∀ l : List Track, (chunksOf bs l).flatten = l
  | [] => rfl
  | t :: ts => by
      rw [chunksOf_cons hbs, List.flatten_cons,
        chunksOf_flatten hbs (ts.drop (bs - 1))]
      have hdrop : ts.drop (bs - 1) = (t :: ts).drop bs := by
        cases bs with
        | zero => exact absurd hbs (lt_irrefl 0)
        | succ n => simp
      rw [hdrop, List.take_append_drop]
termination_by l => l.length
decreasing_by
  simp only [List.length_drop, List.length_cons]
  omega

theorem stripAI_setFallback (reason : String) (t : Track) :
    stripAI (setFallback reason t) = stripAI t := rfl

theorem stripAI_updateTrack (t : Track) (r : AIResult) :
    stripAI (updateTrack t r) = stripAI t := rfl

theorem applyResults_stripAI :
    ∀ (rs : List AIResult) (ts : List Track),
      (applyResults rs ts).map stripAI = ts.map stripAI
  | rs, [] => by cases rs <;> rfl
  | [], t :: ts => rfl
  | r :: rs, t :: ts => by
      rw [applyResults, List.map_cons, List.map_cons, stripAI_updateTrack,
        applyResults_stripAI rs ts]

theorem validate_batch_stripAI (outcome : OracleOutcome) (b : List Track) :
    (validate_batch outcome b).map stripAI = b.map stripAI := by
  cases outcome with
  | throwErr msg => rw [validate_batch, List.map_map]; rfl
  | reply c =>
      cases c with
      | noBrackets => rw [validate_batch, parse_ai_response, List.map_map]; rfl
      | decodeError msg => rw [validate_batch, parse_ai_response, List.map_map]; rfl
      | results rs => exact applyResults_stripAI rs b

theorem applyResults_length :
    ∀ (rs : List AIResult) (ts : List Track),
      (applyResults rs ts).length = ts.length
  | rs, [] => by cases rs <;> rfl
  | [], t :: ts => rfl
  | r :: rs, t :: ts => by
      rw [applyResults, List.length_cons, List.length_cons,
        applyResults_length rs ts]

theorem applyResults_getElem? :
    ∀ (rs : List AIResult) (ts : List Track) (i : Nat),
      (applyResults rs ts)[i]? =
        match ts[i]?, rs[i]? with
        | some t, some r => some (updateTrack t r)
        | some t, none => some t
        | none, _ => none
  | rs, [], i => by cases rs <;> simp [applyResults]
  | [], t :: ts, i => by
      cases h : (t :: ts)[i]? <;> simp [applyResults, h]
  | r :: rs, t :: ts, i => by
      cases i with
      | zero => simp [applyResults]
      | succ n =>
          rw [applyResults]
          simpa using applyResults_getElem? rs ts n

theorem aiFieldsSet_setFallback (reason : String) (t : Track) :
    aiFieldsSet (setFallback reason t) = true := rfl

theorem aiFieldsSet_updateTrack (t : Track) (r : AIResult) :
    aiFieldsSet (updateTrack t r) = true := rfl

theorem applyResults_all_set :
    ∀ (rs : List AIResult) (ts : List Track), ts.length ≤ rs.length →
      ∀ t ∈ applyResults rs ts, aiFieldsSet t = true
  | rs, [], _ => by cases rs <;> simp [applyResults]
  | [], t :: ts, h => by simp at h
  | r :: rs, t :: ts, h => by
      intro u hu
      rw [applyResults] at hu
      rcases List.mem_cons.mp hu with rfl | hu
      · exact aiFieldsSet_updateTrack t r
      · exact applyResults_all_set rs ts (by simpa using h) u hu

theorem validate_batch_all_set (outcome : OracleOutcome) (b : List Track)
    (h : coversBatch outcome b = true) :
    ∀ t ∈ validate_batch outcome b, aiFieldsSet t = true := by
  cases outcome with
  | throwErr msg =>
      intro t ht
      rcases List.mem_map.mp ht with ⟨u, _, rfl⟩
      exact aiFieldsSet_setFallback _ u
  | reply c =>
      cases c with
      | noBrackets =>
          intro t ht
          rcases List.mem_map.mp ht with ⟨u, _, rfl⟩
          exact aiFieldsSet_setFallback _ u
      | decodeError msg =>
          intro t ht
          rcases List.mem_map.mp ht with ⟨u, _, rfl⟩
          exact aiFieldsSet_setFallback _ u
      | results rs =>
          rw [coversBatch, decide_eq_true_eq] at h
          exact applyResults_all_set rs b h

/-! ### Judgment-stage claims -/

/-- Two unjudged tracks used as concrete batch inputs. -/
def trackP : Track := { id := some "p", name := "P" }

def trackQ : Track := { id := some "q", name := "Q" }

/-- A fully populated decoded result entry. -/
def resR : AIResult :=
  { party_score := some 8, reasoning := some "good", recommend := some "yes" }

/-- C5: with no API key configured (`client = none`) the judgment stage
consults no oracle — the result is computed from the input alone — and
every input track comes back with score 5, reasoning
"AI validation unavailable" and recommendation "maybe". -/
theorem validate_no_client (tracks : List Track) (batch_size : Nat) :
    validate_tracks_for_party none tracks batch_size =
      tracks.map (setFallback "AI validation unavailable") := rfl

/-- C10: with a configured client and a positive batch size, the judgment
stage returns exactly one output track per input track, in input order:
stripping the three judgment fields recovers the input list, so each batch
contributed exactly its own tracks and batches were concatenated in order. -/
theorem validate_preserves_tracks (oracle : List Track → OracleOutcome)
    (tracks : List Track) (batch_size : Nat) (hbs : 0 < batch_size) :
    (validate_tracks_for_party (some oracle) tracks batch_size).length =
        tracks.length ∧
      (validate_tracks_for_party (some oracle) tracks batch_size).map stripAI =
        tracks.map stripAI := by
  have hmap : (validate_tracks_for_party (some oracle) tracks batch_size).map
      stripAI = tracks.map stripAI := by
    rw [validate_tracks_for_party, List.map_flatten, List.map_map]
    have hcongr :
        (chunksOf batch_size tracks).map
            (List.map stripAI ∘ fun b => validate_batch (oracle b) b) =
          (chunksOf batch_size tracks).map (List.map stripAI) :=
      List.map_congr_left (fun b _ => validate_batch_stripAI (oracle b) b)
    rw [hcongr, ← List.map_flatten, chunksOf_flatten hbs]
  refine ⟨?_, hmap⟩
  have := congrArg List.length hmap
  simpa using this

/-- C10 witness: a concrete three-track run with batch size 2 under a
throwing oracle keeps length and order. -/
theorem validate_preserves_tracks_witness :
    (validate_tracks_for_party (some (fun _ => .throwErr "boom"))
          [trackP, trackQ, trackA] 2).length = 3 ∧
      (validate_tracks_for_party (some (fun _ => .throwErr "boom"))
          [trackP, trackQ, trackA] 2).map stripAI =
        [trackP, trackQ, trackA].map stripAI := by
  have h := validate_preserves_tracks (fun _ => .throwErr "boom")
    [trackP, trackQ, trackA] 2 (by decide)
  exact ⟨h.1, h.2⟩

/-- C2 counterexample: a parsable oracle reply with fewer result entries
than the batch has tracks leaves the uncovered tail track with none of the
three judgment fields set, so the claimed invariant fails for partial
replies. -/
theorem validate_partial_reply_cx :
    ¬ (∀ t ∈ validate_tracks_for_party
        (some (fun _ => .reply (.results [resR]))) [trackP, trackQ] 5,
      aiFieldsSet t = true) := by decide

/-- C2 (amended): every output track of the judgment stage has all three
fields set provided each batch's oracle outcome covers the batch — it is a
call failure, an unparsable reply (both of which trigger the whole-batch
fallback), or a decoded array with at least one entry per track.  A decoded
array shorter than its batch leaves the tail tracks' fields unset. -/
theorem validate_covered_all_set (oracle : List Track → OracleOutcome)
    (tracks : List Track) (batch_size : Nat)
    (hcov : ∀ b ∈ chunksOf batch_size tracks, coversBatch (oracle b) b = true) :
    ∀ t ∈ validate_tracks_for_party (some oracle) tracks batch_size,
      aiFieldsSet t = true := by
  intro t ht
  rw [validate_tracks_for_party, List.mem_flatten] at ht
  rcases ht with ⟨l, hl, htl⟩
  rcases List.mem_map.mp hl with ⟨b, hb, rfl⟩
  exact validate_batch_all_set (oracle b) b (hcov b hb) t htl

/-- C2 witness: under a throwing oracle (which covers every batch) every
output track of a concrete two-track run has all three fields set. -/
theorem validate_covered_all_set_witness :
    (validate_tracks_for_party (some (fun _ => .throwErr "down"))
        [trackP, trackQ] 1).all aiFieldsSet = true :=
  List.all_eq_true.mpr
    (validate_covered_all_set (fun _ => .throwErr "down") [trackP, trackQ] 1
      (by decide))

/-- C3 counterexample: a decoded one-entry reply for a two-track batch
updates the first track and returns the second one unchanged — with no
score at all, not the claimed fallback triple (score 5 / "maybe"). -/
theorem parse_partial_no_fallback_cx :
    parse_ai_response (.results [resR]) [trackP, trackQ] =
        [updateTrack trackP resR, trackQ] ∧
      trackQ.ai_party_score = none ∧ trackQ.ai_recommend = none := by
  refine ⟨by decide, rfl, rfl⟩

/-- C3 (amended): when the reply decodes to an array, entry `i` is applied
to track `i`; tracks beyond the decoded entries are returned unchanged (no
fallback triple is applied to them), and extra entries are ignored. -/
theorem parse_results_pointwise (rs : List AIResult) (tracks : List Track) :
    (parse_ai_response (.results rs) tracks).length = tracks.length ∧
      ∀ i : Nat,
        (parse_ai_response (.results rs) tracks)[i]? =
          match tracks[i]?, rs[i]? with
          | some t, some r => some (updateTrack t r)
          | some t, none => some t
          | none, _ => none :=
  ⟨applyResults_length rs tracks, fun i => applyResults_getElem? rs tracks i⟩

/-! ### Feature-builder and clusterer claims -/

theorem clamp01_nonneg (x : ℚ) : 0 ≤ clamp01 x := by
  rw [clamp01]
  split_ifs with h1 h2
  · exact le_refl 0
  · exact zero_le_one
  · exact le_of_not_lt h1

theorem clamp01_le_one (x : ℚ) : clamp01 x ≤ 1 := by
  rw [clamp01]
  split_ifs with h1 h2
  · exact zero_le_one
  · exact le_refl 1
  · exact le_of_not_lt h2

theorem foldl_count_add (p : String → Bool) (d : ℚ) :
    ∀ (l : List String) (start : ℚ),
      l.foldl (fun acc kw => if p kw then acc + d else acc) start =
        start + ((l.filter p).length : ℚ) * d
  | [], start => by simp
  | k :: l, start => by
      by_cases hk : p k
      · simp only [List.foldl_cons, List.filter_cons, hk, if_true,
          List.length_cons, foldl_count_add p d l]
        push_cast
        ring
      · simp [List.foldl_cons, List.filter_cons, hk, foldl_count_add p d l]

theorem foldl_count_sub (p : String → Bool) (d : ℚ) :
    ∀ (l : List String) (start : ℚ),
      l.foldl (fun acc kw => if p kw then acc - d else acc) start =
        start - ((l.filter p).length : ℚ) * d
  | [], start => by simp
  | k :: l, start => by
      by_cases hk : p k
      · simp only [List.foldl_cons, List.filter_cons, hk, if_true,
          List.length_cons, foldl_count_sub p d l]
        push_cast
        ring
      · simp [List.foldl_cons, List.filter_cons, hk, foldl_count_sub p d l]

/-- C7: the lexical energy estimate equals 0.5 plus 0.1 per configured
high-energy keyword occurring as a substring of the lower-cased title,
minus 0.1 per occurring low-energy keyword, clamped to [0, 1]; in
particular the result always lies in [0, 1]. -/
theorem estimate_energy_from_name_formula (track_name : String) :
    estimate_energy_from_name track_name =
        clamp01 (1/2 + (hitCount track_name high_energy_keywords : ℚ) / 10 -
          (hitCount track_name low_energy_keywords : ℚ) / 10) ∧
      0 ≤ estimate_energy_from_name track_name ∧
        estimate_energy_from_name track_name ≤ 1 := by
  have hform : estimate_energy_from_name track_name =
      clamp01 (1/2 + (hitCount track_name high_energy_keywords : ℚ) / 10 -
        (hitCount track_name low_energy_keywords : ℚ) / 10) := by
    rw [estimate_energy_from_name, hitCount, hitCount,
      foldl_count_sub (kwHit track_name) (1/10) low_energy_keywords,
      foldl_count_add (kwHit track_name) (1/10) high_energy_keywords]
    congr 1
    ring
  exact ⟨hform, hform ▸ clamp01_nonneg _, hform ▸ clamp01_le_one _⟩

/-- C6: rows labelled by `cluster_tracks` are exactly those with every
selected feature cell non-null: every output row is complete and comes from
the input, and an input row missing any selected feature is absent from the
output (while of course still present in the unchanged input list). -/
theorem cluster_tracks_complete_rows (cols : List FeatureCol) (rows : List Row)
    (out : List Row) (h : cluster_tracks cols rows = Except.ok out) :
    (∀ r ∈ out, ∀ c ∈ cols, (getCol r c).isSome = true) ∧
      (∀ r ∈ rows, (∃ c ∈ cols, getCol r c = none) → r ∉ out) ∧
      ∀ r ∈ out, r ∈ rows := by
  rw [cluster_tracks] at h
  split at h
  · exact absurd h (by simp)
  · have hout : out = rows.filter (hasAllFeatures cols) :=
      (Except.ok.injEq _ _ ▸ h).symm
    subst hout
    refine ⟨?_, ?_, ?_⟩
    · intro r hr c hc
      have hall := List.of_mem_filter hr
      rw [hasAllFeatures, List.all_eq_true] at hall
      exact hall c hc
    · intro r _ hmiss hr
      have hall := List.of_mem_filter hr
      rw [hasAllFeatures, List.all_eq_true] at hall
      rcases hmiss with ⟨c, hc, hnone⟩
      have := hall c hc
      rw [hnone] at this
      exact absurd this (by simp)
    · intro r hr
      exact List.mem_of_mem_filter hr

/-- A complete row and a row with a null popularity cell for the C6 witness. -/
def rowFull : Row := { name := "full", popularity := some 50 }

def rowGap : Row := { name := "gap" }

/-- C6 witness: with `popularity` selected, the complete row is labelled
(and its selected cell is non-null) while the row with the null popularity
cell is dropped from the output. -/
theorem cluster_tracks_complete_rows_witness :
    (getCol rowFull FeatureCol.popularity).isSome = true ∧
      rowGap ∉ [rowFull] ∧ rowFull ∈ [rowFull, rowGap] :=
  ⟨(cluster_tracks_complete_rows [FeatureCol.popularity] [rowFull, rowGap]
        [rowFull] rfl).1 rowFull (List.mem_cons_self _ _)
      FeatureCol.popularity (List.mem_cons_self _ _),
    (cluster_tracks_complete_rows [FeatureCol.popularity] [rowFull, rowGap]
        [rowFull] rfl).2.1 rowGap (List.mem_cons_of_mem _ (List.mem_cons_self _ _))
      ⟨FeatureCol.popularity, List.mem_cons_self _ _, rfl⟩,
    (cluster_tracks_complete_rows [FeatureCol.popularity] [rowFull, rowGap]
        [rowFull] rfl).2.2 rowFull (List.mem_cons_self _ _)⟩

/-! ### Lemmas about deduplication (CPython dict semantics) -/

theorem upsert_keys (k : String) (t : Track) :
    ∀ acc : List (String × Track),
      (upsert k t acc).map Prod.fst =
        if k ∈ acc.map Prod.fst then acc.map Prod.fst
        else acc.map Prod.fst ++ [k]
  | [] => by simp [upsert]
  | (k', t') :: rest => by
      rw [upsert]
      by_cases hk : k' = k
      · subst hk
        simp
      · have hne : ¬ (k = k') := fun h => hk h.symm
        simp only [if_neg hk, List.map_cons, List.mem_cons, hne, false_or,
          upsert_keys k t rest]
        by_cases hmem : k ∈ rest.map Prod.fst <;> simp [hmem]

theorem dedupStep_none {t : Track} {acc : List (String × Track)}
    (h : validId t = none) : dedupStep acc t = acc := by
  rw [dedupStep, h]

theorem dedupStep_some {t : Track} {k : String} {acc : List (String × Track)}
    (h : validId t = some k) : dedupStep acc t = upsert k t acc := by
  rw [dedupStep, h]

theorem newKeys_cons_none {seen : List String} {t : Track} {ts : List Track}
    (h : validId t = none) : newKeys seen (t :: ts) = newKeys seen ts := by
  rw [newKeys, h]

theorem newKeys_cons_some {seen : List String} {t : Track} {ts : List Track}
    {k : String} (h : validId t = some k) :
    newKeys seen (t :: ts) =
      if k ∈ seen then newKeys seen ts else k :: newKeys (k :: seen) ts := by
  rw [newKeys, h]

theorem upsert_keys_nodup (k : String) (t : Track) :
    ∀ acc : List (String × Track), (acc.map Prod.fst).Nodup →
      ((upsert k t acc).map Prod.fst).Nodup
  | [] => by simp [upsert]
  | (k', t') :: rest => by
      intro h
      rcases List.pairwise_cons.mp h with ⟨hk', hrest⟩
      rw [upsert]
      by_cases hk : k' = k
      · rw [if_pos hk]
        simpa using h
      · rw [if_neg hk]
        simp only [List.map_cons]
        refine List.pairwise_cons.mpr ⟨?_, upsert_keys_nodup k t rest hrest⟩
        intro x hx
        rw [upsert_keys] at hx
        by_cases hmem : k ∈ rest.map Prod.fst
        · rw [if_pos hmem] at hx
          exact hk' x hx
        · rw [if_neg hmem] at hx
          rcases List.mem_append.mp hx with hx | hx
          · exact hk' x hx
          · rcases List.mem_singleton.mp hx with rfl
            exact hk

theorem mem_upsert {p : String × Track} (k : String) (t : Track) :
    ∀ acc : List (String × Track), p ∈ upsert k t acc → p = (k, t) ∨ p ∈ acc
  | [] => by simp [upsert]
  | (k', t') :: rest => fun hp => by
      rw [upsert] at hp
      by_cases hk : k' = k
      · subst hk
        rw [if_pos rfl] at hp
        rcases List.mem_cons.mp hp with rfl | hp2
        · exact Or.inl rfl
        · exact Or.inr (List.mem_cons_of_mem _ hp2)
      · rw [if_neg hk] at hp
        rcases List.mem_cons.mp hp with rfl | hp2
        · exact Or.inr (List.mem_cons_self _ _)
        · rcases mem_upsert k t rest hp2 with rfl | hp3
          · exact Or.inl rfl
          · exact Or.inr (List.mem_cons_of_mem _ hp3)

theorem mem_upsert_nodup {p : String × Track} (k : String) (t : Track) :
    ∀ acc : List (String × Track), (acc.map Prod.fst).Nodup →
      (p ∈ upsert k t acc ↔ p = (k, t) ∨ (p ∈ acc ∧ p.1 ≠ k))
  | [] => by simp [upsert]
  | (k', t') :: rest => fun h => by
      rcases List.pairwise_cons.mp h with ⟨hk', hrest⟩
      rw [upsert]
      by_cases hk : k' = k
      · subst hk
        rw [if_pos rfl]
        constructor
        · intro hp
          rcases List.mem_cons.mp hp with rfl | hp2
          · exact Or.inl rfl
          · refine Or.inr ⟨List.mem_cons_of_mem _ hp2, ?_⟩
            intro h1
            exact hk' p.1 (List.mem_map_of_mem Prod.fst hp2) h1.symm
        · intro hp
          rcases hp with rfl | ⟨hp2, hne⟩
          · exact List.mem_cons_self _ _
          · rcases List.mem_cons.mp hp2 with rfl | hp3
            · exact absurd rfl hne
            · exact List.mem_cons_of_mem _ hp3
      · rw [if_neg hk, List.mem_cons, mem_upsert_nodup k t rest hrest]
        constructor
        · rintro (rfl | rfl | ⟨hp, hne⟩)
          · refine Or.inr ⟨List.mem_cons_self _ _, ?_⟩
            intro h1
            exact hk h1
          · exact Or.inl rfl
          · exact Or.inr ⟨List.mem_cons_of_mem _ hp, hne⟩
        · rintro (rfl | ⟨hp, hne⟩)
          · exact Or.inr (Or.inl rfl)
          · rcases List.mem_cons.mp hp with rfl | hp2
            · exact Or.inl rfl
            · exact Or.inr (Or.inr ⟨hp2, hne⟩)

theorem dedupStep_keys_nodup (t : Track) (acc : List (String × Track))
    (h : (acc.map Prod.fst).Nodup) : ((dedupStep acc t).map Prod.fst).Nodup := by
  cases htid : validId t with
  | none => rw [dedupStep_none htid]; exact h
  | some k => rw [dedupStep_some htid]; exact upsert_keys_nodup k t acc h

theorem newKeys_congr :
    ∀ (ts : List Track) (s₁ s₂ : List String),
      (∀ x, x ∈ s₁ ↔ x ∈ s₂) → newKeys s₁ ts = newKeys s₂ ts
  | [], _, _, _ => rfl
  | t :: ts, s₁, s₂, h => by
      cases htid : validId t with
      | none =>
          rw [newKeys_cons_none htid, newKeys_cons_none htid]
          exact newKeys_congr ts s₁ s₂ h
      | some k =>
          rw [newKeys_cons_some htid, newKeys_cons_some htid]
          by_cases hk : k ∈ s₁
          · rw [if_pos hk, if_pos ((h k).mp hk)]
            exact newKeys_congr ts s₁ s₂ h
          · rw [if_neg hk, if_neg (fun hk2 => hk ((h k).mpr hk2))]
            refine congrArg (k :: ·) (newKeys_congr ts (k :: s₁) (k :: s₂) ?_)
            intro x
            simp [h x]

theorem foldl_dedupStep_keys :
    ∀ (ts : List Track) (acc : List (String × Track)),
      ((ts.foldl dedupStep acc).map Prod.fst) =
        acc.map Prod.fst ++ newKeys (acc.map Prod.fst) ts
  | [], acc => by simp [newKeys]
  | t :: ts, acc => by
      rw [List.foldl_cons]
      cases htid : validId t with
      | none =>
          rw [dedupStep_none htid, foldl_dedupStep_keys ts acc,
            newKeys_cons_none htid]
      | some k =>
          rw [dedupStep_some htid, foldl_dedupStep_keys ts (upsert k t acc),
            newKeys_cons_some htid]
          by_cases hk : k ∈ acc.map Prod.fst
          · rw [upsert_keys, if_pos hk, if_pos hk]
          · rw [upsert_keys, if_neg hk, if_neg hk, List.append_assoc,
              List.singleton_append]
            refine congrArg (acc.map Prod.fst ++ k :: ·) ?_
            exact newKeys_congr ts _ _ (fun x => by simp [or_comm])

theorem newKeys_nodup :
    ∀ (ts : List Track) (seen : List String),
      (newKeys seen ts).Nodup ∧ ∀ x ∈ newKeys seen ts, x ∉ seen
  | [], seen => ⟨List.Pairwise.nil, by simp [newKeys]⟩
  | t :: ts, seen => by
      cases htid : validId t with
      | none =>
          rw [newKeys_cons_none htid]
          exact newKeys_nodup ts seen
      | some k =>
          rw [newKeys_cons_some htid]
          by_cases hk : k ∈ seen
          · rw [if_pos hk]
            exact newKeys_nodup ts seen
          · rw [if_neg hk]
            rcases newKeys_nodup ts (k :: seen) with ⟨hnd, hout⟩
            refine ⟨List.pairwise_cons.mpr ⟨?_, hnd⟩, ?_⟩
            · intro x hx hxk
              subst hxk
              exact hout _ hx (List.mem_cons_self _ _)
            · intro x hx
              rcases List.mem_cons.mp hx with rfl | hx2
              · exact hk
              · intro hs
                exact hout x hx2 (List.mem_cons_of_mem _ hs)

theorem foldl_dedupStep_validId :
    ∀ (ts : List Track) (acc : List (String × Track)),
      (∀ p ∈ acc, validId p.2 = some p.1) →
      ∀ p ∈ ts.foldl dedupStep acc, validId p.2 = some p.1
  | [], _, hacc => hacc
  | t :: ts, acc, hacc => by
      rw [List.foldl_cons]
      refine foldl_dedupStep_validId ts (dedupStep acc t) ?_
      intro p hp
      cases htid : validId t with
      | none =>
          rw [dedupStep_none htid] at hp
          exact hacc p hp
      | some k =>
          rw [dedupStep_some htid] at hp
          rcases mem_upsert k t acc hp with rfl | hp2
          · exact htid
          · exact hacc p hp2

theorem foldl_dedupStep_last :
    ∀ (ts : List Track) (acc : List (String × Track)),
      (acc.map Prod.fst).Nodup →
      ∀ p ∈ ts.foldl dedupStep acc,
        (p ∈ acc ∧ ts.filter (fun u => decide (validId u = some p.1)) = []) ∨
          (ts.filter (fun u => decide (validId u = some p.1))).getLast? =
            some p.2
  | [], _, _, p, hp => Or.inl ⟨hp, rfl⟩
  | t :: ts, acc, hnd, p, hp => by
      rw [List.foldl_cons] at hp
      have hnd' : ((dedupStep acc t).map Prod.fst).Nodup :=
        dedupStep_keys_nodup t acc hnd
      rcases foldl_dedupStep_last ts (dedupStep acc t) hnd' p hp with
        ⟨hpacc, hflt⟩ | hlast
      · cases htid : validId t with
        | none =>
            rw [dedupStep_none htid] at hpacc
            refine Or.inl ⟨hpacc, ?_⟩
            rw [List.filter_cons_of_neg (by simp [htid]), hflt]
        | some k =>
            rw [dedupStep_some htid] at hpacc
            rcases (mem_upsert_nodup k t acc hnd).mp hpacc with rfl | ⟨hpacc2, hne⟩
            · refine Or.inr ?_
              rw [List.filter_cons_of_pos (by simp [htid]), hflt]
              rfl
            · refine Or.inl ⟨hpacc2, ?_⟩
              have hdk : ¬ (validId t = some p.1) := by
                rw [htid]
                intro h0
                exact hne (Option.some.injEq k p.1 ▸ h0).symm
              rw [List.filter_cons_of_neg (by simpa using hdk), hflt]
      · refine Or.inr ?_
        have hnonnil : ts.filter (fun u => decide (validId u = some p.1)) ≠ [] := by
          intro h0
          rw [h0] at hlast
          exact absurd hlast (by simp)
        by_cases hcond : validId t = some p.1
        · rw [List.filter_cons_of_pos (by simpa using hcond)]
          rcases List.exists_cons_of_ne_nil hnonnil with ⟨x, l', hxl⟩
          rw [hxl] at hlast ⊢
          rw [List.getLast?_cons_cons]
          exact hlast
        · rw [List.filter_cons_of_neg (by simpa using hcond)]
          exact hlast

/-! ### Deduplication claims -/

/-- Two tracks sharing an id but differing elsewhere. -/
def dupX : Track := { id := some "a", name := "X" }

def dupY : Track := { id := some "a", name := "Y" }

/-- C4 counterexample: merging `[dupX, dupY]` (same id "a") keeps `dupY`,
the LAST occurrence — the dict comprehension overwrites the value on a
repeated key — so the claimed "first occurrence wins" fails. -/
theorem dedupById_last_wins_cx :
    dedupById [dupX, dupY] = [dupY] ∧ dedupById [dupX, dupY] ≠ [dupX] :=
  ⟨rfl, by decide⟩

/-- C4 (amended): deduplication by id yields a list in which each valid id
appears exactly once, in order of first appearance in the source (the key
order `newKeys [] tracks` of the insertion-ordered dict), and the surviving
record for each id is the LAST occurrence with that id in source order
(dict insertion keeps the first position but overwrites the value). -/
theorem dedupById_spec (tracks : List Track) :
    (dedupById tracks).map validId = (newKeys [] tracks).map some ∧
      (newKeys [] tracks).Nodup ∧
      ∀ t ∈ dedupById tracks, ∃ k, validId t = some k ∧
        (tracks.filter (fun u => decide (validId u = some k))).getLast? =
          some t := by
  refine ⟨?_, (newKeys_nodup tracks []).1, ?_⟩
  · rw [dedupById, List.map_map]
    have h1 : (tracks.foldl dedupStep []).map (validId ∘ Prod.snd) =
        (tracks.foldl dedupStep []).map (some ∘ Prod.fst) :=
      List.map_congr_left
        (fun p hp => foldl_dedupStep_validId tracks [] (by simp) p hp)
    rw [h1, ← List.map_map, foldl_dedupStep_keys tracks []]
    simp
  · intro t ht
    rw [dedupById] at ht
    rcases List.mem_map.mp ht with ⟨p, hp, rfl⟩
    refine ⟨p.1, foldl_dedupStep_validId tracks [] (by simp) p hp, ?_⟩
    rcases foldl_dedupStep_last tracks [] (by simp) p hp with ⟨hpacc, _⟩ | hlast
    · exact absurd hpacc (List.not_mem_nil p)
    · exact hlast

end WeddingPlaylist
